import Mathlib

/-!
Verification of the proxyswarm dispatcher core (`ProxySwarm`, `Timer`) against
its specification.  The TypeScript source is shallowly embedded: machine
numbers become `ℚ`/`ℕ`, the lodash `_.chunk` partition becomes `lodashChunk`,
`Timer.tick` becomes a pure state transformer, the `run` dispatch loop becomes
a pure trace of per-item records and handler calls, the readiness gate becomes
a fuelled loop, and the wave barrier becomes a small-step scheduler relation.
-/

/-- Chunking with positive chunk size `n + 1`: splits a list into contiguous
groups of `n + 1` elements, the last group possibly shorter. -/
def chunkPos {α : Type} (n : Nat) : List α → List (List α)
  | [] => []
  | a :: l => (a :: l.take n) :: chunkPos n (l.drop n)
termination_by l => l.length
decreasing_by simp [List.length_drop]; omega

/-- lodash `_.chunk(array, size)`: for `size < 1` it returns `[]`, otherwise
groups of `size`, the last possibly shorter. -/
def lodashChunk {α : Type} (l : List α) (n : Nat) : List (List α) :=
  match n with
  | 0 => []
  | m + 1 => chunkPos m l

theorem chunkPos_nil {α : Type} (n : Nat) : chunkPos n ([] : List α) = [] := by
  simp [chunkPos]

theorem chunkPos_cons {α : Type} (n : Nat) (a : α) (l : List α) :
    chunkPos n (a :: l) = (a :: l.take n) :: chunkPos n (l.drop n) := by
  simp [chunkPos]

/-- Joining the chunks recovers the original list. -/
theorem chunkPos_join {α : Type} (n : Nat) (l : List α) :
    (chunkPos n l).flatten = l := by
  generalize hk : l.length = k
  induction k using Nat.strong_induction_on generalizing l with
  | _ k ih =>
    cases l with
    | nil => simp [chunkPos]
    | cons a t =>
      rw [chunkPos_cons]
      have h1 : (t.drop n).length < k := by
        subst hk; simp [List.length_drop]; omega
      simp only [List.flatten_cons]
      rw [ih _ h1 (t.drop n) rfl]
      simp [List.take_append_drop]

theorem lodashChunk_join {α : Type} (l : List α) (n : Nat) (h : 0 < n) :
    (lodashChunk l n).flatten = l := by
  cases n with
  | zero => omega
  | succ m => simpa [lodashChunk] using chunkPos_join m l

theorem chunkPos_ne_nil {α : Type} (n : Nat) (l : List α) :
    ∀ c ∈ chunkPos n l, c ≠ [] := by
  induction l using chunkPos.induct n with
  | case1 => simp [chunkPos]
  | case2 a t ih =>
    rw [chunkPos_cons]
    intro c hc
    rcases List.mem_cons.mp hc with h | h
    · simp [h]
    · exact ih c h

theorem chunkPos_mem_length {α : Type} (n : Nat) (l : List α) :
    ∀ c ∈ chunkPos n l, c.length ≤ n + 1 := by
  induction l using chunkPos.induct n with
  | case1 => simp [chunkPos]
  | case2 a t ih =>
    rw [chunkPos_cons]
    intro c hc
    rcases List.mem_cons.mp hc with h | h
    · subst h; simp only [List.length_cons, List.length_take]; omega
    · exact ih c h

theorem chunkPos_eq_nil_iff {α : Type} (n : Nat) (l : List α) :
    chunkPos n l = [] ↔ l = [] := by
  cases l with
  | nil => simp [chunkPos]
  | cons a t => rw [chunkPos_cons]; simp

/-- Every chunk except possibly the last has exactly `n + 1` elements. -/
theorem chunkPos_dropLast_length {α : Type} (n : Nat) (l : List α) :
    ∀ c ∈ (chunkPos n l).dropLast, c.length = n + 1 := by
  induction l using chunkPos.induct n with
  | case1 => simp [chunkPos]
  | case2 a t ih =>
    rw [chunkPos_cons]
    cases hr : chunkPos n (t.drop n) with
    | nil => simp
    | cons r rs =>
      intro c hc
      rw [List.dropLast_cons_of_ne_nil (by simp : r :: rs ≠ [])] at hc
      rcases List.mem_cons.mp hc with h | h
      · subst h
        have hd : t.drop n ≠ [] := by
          intro hh
          rw [(chunkPos_eq_nil_iff n _).mpr hh] at hr
          exact List.cons_ne_nil r rs hr.symm
        have hlen : n < t.length := by
          by_contra hcon
          push_neg at hcon
          exact hd (List.drop_eq_nil_of_le hcon)
        simp only [List.length_cons, List.length_take]
        omega
      · exact ih c (hr ▸ h)

/-! ## The `Timer` EMA estimator (`Timer` class, `src` lines 45–96)

JavaScript numbers are embedded as `ℚ`; `Date.now() - itemStartTime` is
embedded by passing `now` explicitly. -/

/-- `Math.round` for the nonnegative values occurring in `formatETA`
(JS rounds half toward positive infinity). -/
def jsRound (x : ℚ) : ℤ := ⌊x + 1 / 2⌋

/-- The JS remainder `a % b` for the nonnegative operands occurring in
`formatETA` (where truncation and floor agree). -/
def jsFmod (a b : ℚ) : ℚ := a - b * (⌊a / b⌋ : ℚ)

/-- `n.toString().padStart(w, "0")` for the nonnegative integers occurring in
`formatETA`. -/
def intPad (w : Nat) (n : ℤ) : String :=
  let s := toString n
  if s.length < w then String.mk (List.replicate (w - s.length) '0') ++ s else s

/-- The four numeric fields computed by `Timer.formatETA`:
days, hours, minutes and rounded seconds. -/
def Timer.etaFields (time : ℚ) : ℤ × ℤ × ℤ × ℤ :=
  let delta0 := |time| / 1000
  let days := ⌊delta0 / 86400⌋
  let delta1 := delta0 - (days : ℚ) * 86400
  let hours := ⌊delta1 / 3600⌋ % 24
  let delta2 := delta1 - (hours : ℚ) * 3600
  let minutes := ⌊delta2 / 60⌋ % 60
  let delta3 := delta2 - (minutes : ℚ) * 60
  let seconds := jsRound (jsFmod delta3 60)
  (days, hours, minutes, seconds)

/-- `Timer.formatETA` (`src` lines 75–95): days padded to 3 digits, hours,
minutes and seconds to 2, joined with `":"`. -/
def Timer.formatETA (time : ℚ) : String :=
  let f := Timer.etaFields time
  String.intercalate ":" [intPad 3 f.1, intPad 2 f.2.1, intPad 2 f.2.2.1, intPad 2 f.2.2.2]

/-- The `EMAConfig` interface (`src` lines 37–43). -/
structure EMAConfig where
  alpha : ℚ
  ema : ℚ
  startTime : ℚ
  totalItems : ℕ
  itemsProcessed : ℕ
deriving DecidableEq, Repr

/-- The parts of `Timer.tick`'s effect and return value used by the claims:
the updated config, the numeric projected eta, and the formatted eta display
(the `elapsed` and `remaining` display strings are independent of these
fields and are not modelled). -/
structure TickResult where
  config : EMAConfig
  eta : ℚ
  etaDisplay : String
deriving DecidableEq, Repr

/-- `Timer.tick(itemStartTime, scaleFactor)` (`src` lines 52–73), with the
ambient clock `Date.now()` passed explicitly as `now`. -/
def Timer.tick (c : EMAConfig) (now itemStartTime scaleFactor : ℚ) : TickResult :=
  let itemsProcessed := c.itemsProcessed + 1
  let itemElapsedTime := now - itemStartTime
  let ema :=
    if c.ema = 0 then itemElapsedTime
    else c.alpha * itemElapsedTime + (1 - c.alpha) * c.ema
  let remainingItems : ℚ := (c.totalItems : ℚ) - (itemsProcessed : ℚ)
  let eta := ema * remainingItems / scaleFactor
  { config := { c with ema := ema, itemsProcessed := itemsProcessed }
    eta := eta
    etaDisplay := Timer.formatETA eta }

/-- `k` successive `tick` calls whose item durations are `ds` (each call made
with `itemStartTime = 0` and `now` = the item's duration). -/
def Timer.ticks (c : EMAConfig) (ds : List ℚ) : EMAConfig :=
  ds.foldl (fun s d => (Timer.tick s d 0 1).config) c

/-- Modelled from the spec: the recurrence the spec states for the estimator,
`ema_1 = d1`, `ema_i = alpha * d_i + (1 - alpha) * ema_{i-1}`. -/
def specEMA (alpha : ℚ) (ds : List ℚ) : ℚ :=
  match ds with
  | [] => 0
  | d :: rest => rest.foldl (fun e d2 => alpha * d2 + (1 - alpha) * e) d

/-! ## The `ProxySwarm.run` dispatch loop (`src` lines 187–256)

Network and handler effects are embedded as a `Behavior` oracle: whether an
item's `fetch` resolves (no network error or timeout), and whether the
caller's success handler returns without throwing.  `run` then becomes a
pure function from the item list, the proxy list and the oracle to the list
of per-wave task records and the list of handler invocations. -/

/-- Outcome oracle for one `run`: `fetchOk url` — the proxied request
resolves; `handlerOk url` — `handler(res)` returns without throwing. -/
structure Behavior where
  fetchOk : String → Bool
  handlerOk : String → Bool

/-- One settled task of `run`: the item, the wave slot it ran in, the proxy
serving that slot, and the final value of the `success` flag. -/
structure Record where
  url : String
  proxyIdx : ℕ
  proxy : String
  outcome : Bool
deriving DecidableEq, Repr

/-- The body of `chunk.map(async (url, i) => ...)`: slot `i` uses
`proxies[i]`, and `success` is set iff the fetch resolved and the handler
returned normally. -/
def runTask (beh : Behavior) (proxies : List String) (i : ℕ) (url : String) : Record :=
  { url := url
    proxyIdx := i
    proxy := proxies.getD i ""
    outcome := beh.fetchOk url && beh.handlerOk url }

/-- One wave: tasks for the chunk's items at consecutive slot indices. -/
def runWave (beh : Behavior) (proxies : List String) : ℕ → List String → List Record
  | _, [] => []
  | i, u :: us => runTask beh proxies i u :: runWave beh proxies (i + 1) us

/-- `ProxySwarm.run`: partition the urls with `_.chunk(urls, proxies.length)`
and run each wave, slot `i` of a wave on proxy `i`. -/
def runWaves (proxies items : List String) (beh : Behavior) : List (List Record) :=
  (lodashChunk items proxies.length).map (runWave beh proxies 0)

/-- A single caller-visible invocation made by `run`. -/
inductive Call where
  | handler (url : String)
  | errorh (url : String)
deriving DecidableEq, Repr

/-- The invocations one task makes, following the `try`/`catch` of `run`:
a resolved fetch always invokes `handler`; any error (fetch rejection or an
exception thrown by `handler`) reaches the `catch`, which invokes
`errorHandler` only when one was supplied. -/
def taskCalls (beh : Behavior) (hasErrorHandler : Bool) (url : String) : List Call :=
  if beh.fetchOk url then
    if beh.handlerOk url then [Call.handler url]
    else Call.handler url :: (if hasErrorHandler then [Call.errorh url] else [])
  else if hasErrorHandler then [Call.errorh url] else []

/-- All invocations of one `run`, wave by wave, slot by slot. -/
def runCalls (proxies items : List String) (beh : Behavior) (hasErrorHandler : Bool) :
    List Call :=
  ((lodashChunk items proxies.length).map
    (fun c => (c.map (taskCalls beh hasErrorHandler)).flatten)).flatten

/-- The `ProxySwarm` constructor state (`src` lines 118–131): it stores the
proxy list; with an empty list it emits `console.error` (modelled by
`errorReported`) but still returns an instance. -/
structure ProxySwarm where
  proxies : List String
  errorReported : Bool
deriving DecidableEq, Repr

/-- `new ProxySwarm(config, proxyConfig)`: never throws; reports a visible
error exactly when the proxy list is empty. -/
def mkProxySwarm (proxies : List String) : ProxySwarm :=
  { proxies := proxies, errorReported := proxies.isEmpty }

theorem runWave_map_url (beh : Behavior) (proxies : List String) :
    ∀ (c : List String) (i : ℕ), (runWave beh proxies i c).map Record.url = c := by
  intro c
  induction c with
  | nil => intro i; rfl
  | cons u us ih => intro i; simp [runWave, runTask, ih]

theorem runWave_length (beh : Behavior) (proxies : List String) :
    ∀ (c : List String) (i : ℕ), (runWave beh proxies i c).length = c.length := by
  intro c
  induction c with
  | nil => intro i; rfl
  | cons u us ih => intro i; simp [runWave, ih]

theorem runWave_get? (beh : Behavior) (proxies : List String) :
    ∀ (c : List String) (i j : ℕ),
      (runWave beh proxies i c).get? j = (c.get? j).map (runTask beh proxies (i + j)) := by
  intro c
  induction c with
  | nil => intro i j; simp [runWave]
  | cons u us ih =>
    intro i j
    cases j with
    | zero => simp [runWave]
    | succ k =>
      simp only [runWave, List.get?]
      rw [ih (i + 1) k]
      have h2 : i + 1 + k = i + (k + 1) := by omega
      rw [h2]

theorem runWave_mem (beh : Behavior) (proxies : List String) :
    ∀ (c : List String) (i : ℕ), ∀ rec ∈ runWave beh proxies i c,
      rec.url ∈ c ∧ rec.outcome = (beh.fetchOk rec.url && beh.handlerOk rec.url) := by
  intro c
  induction c with
  | nil => intro i rec h; simp [runWave] at h
  | cons u us ih =>
    intro i rec h
    rcases List.mem_cons.mp h with h | h
    · subst h; simp [runTask]
    · have := ih (i + 1) rec h
      exact ⟨List.mem_cons_of_mem u this.1, this.2⟩

theorem waves_flatten_map_url (beh : Behavior) (proxies : List String) :
    ∀ (cs : List (List String)),
      ((cs.map (runWave beh proxies 0)).flatten).map Record.url = cs.flatten := by
  intro cs
  induction cs with
  | nil => rfl
  | cons c rest ih => simp [List.map_append, ih, runWave_map_url]

/-- With a non-empty proxy list, the settled records of a run list the items
in input order, one record per item. -/
theorem runWaves_flatten_map_url (proxies items : List String) (beh : Behavior)
    (h : proxies ≠ []) :
    ((runWaves proxies items beh).flatten).map Record.url = items := by
  unfold runWaves
  rw [waves_flatten_map_url]
  exact lodashChunk_join items proxies.length (List.length_pos.mpr h)

theorem taskCalls_true_length (beh : Behavior) (u : String) :
    (taskCalls beh true u).length
      = 1 + (if beh.fetchOk u && !beh.handlerOk u then 1 else 0) := by
  cases hf : beh.fetchOk u <;> cases hh : beh.handlerOk u <;> simp [taskCalls, hf, hh]

theorem callsFlat_length (beh : Behavior) :
    ∀ l : List String,
      ((l.map (taskCalls beh true)).flatten).length
        = l.length + l.countP (fun u => beh.fetchOk u && !beh.handlerOk u) := by
  intro l
  induction l with
  | nil => rfl
  | cons u us ih =>
    simp only [List.map_cons, List.flatten_cons, List.length_append, ih,
      taskCalls_true_length, List.countP_cons, List.length_cons]
    by_cases h : (beh.fetchOk u && !beh.handlerOk u) = true
    · simp only [h, if_true]; omega
    · simp only [h, if_false]; omega

theorem flatten_map_flatten {α β : Type} (g : α → List β) :
    ∀ cs : List (List α),
      ((cs.map (fun c => (c.map g).flatten)).flatten) = ((cs.flatten).map g).flatten := by
  intro cs
  induction cs with
  | nil => rfl
  | cons c rest ih => simp [List.map_append, List.flatten_append, ih]

/-- With a non-empty proxy list, the invocations of a run are the per-item
invocations in item order. -/
theorem runCalls_eq (proxies items : List String) (beh : Behavior) (eh : Bool)
    (h : proxies ≠ []) :
    runCalls proxies items beh eh = ((items.map (taskCalls beh eh)).flatten) := by
  unfold runCalls
  rw [flatten_map_flatten]
  rw [lodashChunk_join items proxies.length (List.length_pos.mpr h)]

/-! ## The readiness gate (`ProxySwarm.waitForProxiesReady`, `src` lines 165–185)

The network probe is embedded as an oracle `probe k p`: whether the `fetch`
to proxy `p` resolves during pass number `k`.  The unbounded `while` loop is
embedded with explicit fuel; `none` means the loop had not terminated within
`fuel` passes. -/

def PING_INTERVAL_MS : ℕ := 1000

/-- One pass of the gate's `Promise.all(this.proxies.map(...))`: every proxy
not yet in `running` is probed; on success it is added, on failure the error
is swallowed and nothing changes for it. -/
def passStep (probe : ℕ → String → Bool) (proxies : List String) (k : ℕ)
    (running : List String) : List String :=
  proxies.foldl (fun r p => if p ∈ r then r else if probe k p then r ++ [p] else r) running

/-- Result of a terminated gate: the ready set, the number of full passes
executed, and the sleep durations performed (one after each pass). -/
structure GateResult where
  running : List String
  passes : ℕ
  sleeps : List ℕ
deriving DecidableEq, Repr

def gateAux (probe : ℕ → String → Bool) (proxies : List String) :
    ℕ → ℕ → List String → List ℕ → Option GateResult
  | 0, _, _, _ => none
  | fuel + 1, k, running, sleeps =>
    if running.length < proxies.length then
      gateAux probe proxies fuel (k + 1) (passStep probe proxies k running)
        (sleeps ++ [PING_INTERVAL_MS])
    else some ⟨running, k, sleeps⟩

def waitForProxiesReady (probe : ℕ → String → Bool) (proxies : List String)
    (fuel : ℕ) : Option GateResult :=
  gateAux probe proxies fuel 0 [] []

theorem passStep_mem (probe : ℕ → String → Bool) (k : ℕ) :
    ∀ (l r : List String) (x : String),
      x ∈ passStep probe l k r ↔ x ∈ r ∨ (x ∈ l ∧ probe k x = true) := by
  intro l
  induction l with
  | nil => intro r x; simp [passStep]
  | cons p t ih =>
    intro r x
    have step : passStep probe (p :: t) k r
        = passStep probe t k (if p ∈ r then r else if probe k p then r ++ [p] else r) := by
      simp [passStep]
    rw [step, ih]
    by_cases hpr : p ∈ r
    · simp only [hpr, if_true]
      constructor
      · rintro (hx | hx)
        · exact Or.inl hx
        · exact Or.inr ⟨List.mem_cons_of_mem p hx.1, hx.2⟩
      · rintro (hx | ⟨hx1, hx2⟩)
        · exact Or.inl hx
        · rcases List.mem_cons.mp hx1 with he | ht
          · exact Or.inl (he ▸ hpr)
          · exact Or.inr ⟨ht, hx2⟩
    · by_cases hpk : probe k p = true
      · simp only [hpr, if_false, hpk, if_true]
        constructor
        · rintro (hx | hx)
          · rcases List.mem_append.mp hx with hx | hx
            · exact Or.inl hx
            · have : x = p := by simpa using hx
              exact Or.inr ⟨this ▸ List.mem_cons_self p t, this ▸ hpk⟩
          · exact Or.inr ⟨List.mem_cons_of_mem p hx.1, hx.2⟩
        · rintro (hx | ⟨hx1, hx2⟩)
          · exact Or.inl (List.mem_append.mpr (Or.inl hx))
          · rcases List.mem_cons.mp hx1 with he | ht
            · exact Or.inl (List.mem_append.mpr (Or.inr (by simp [he])))
            · exact Or.inr ⟨ht, hx2⟩
      · simp only [hpr, if_false, hpk]
        constructor
        · rintro (hx | hx)
          · exact Or.inl hx
          · exact Or.inr ⟨List.mem_cons_of_mem p hx.1, hx.2⟩
        · rintro (hx | ⟨hx1, hx2⟩)
          · exact Or.inl hx
          · rcases List.mem_cons.mp hx1 with he | ht
            · exact absurd (he ▸ hx2) (by simpa using hpk)
            · exact Or.inr ⟨ht, hx2⟩

theorem passStep_nodup (probe : ℕ → String → Bool) (k : ℕ) :
    ∀ (l r : List String), r.Nodup → (passStep probe l k r).Nodup := by
  intro l
  induction l with
  | nil => intro r h; simpa [passStep] using h
  | cons p t ih =>
    intro r h
    have step : passStep probe (p :: t) k r
        = passStep probe t k (if p ∈ r then r else if probe k p then r ++ [p] else r) := by
      simp [passStep]
    rw [step]
    apply ih
    by_cases hpr : p ∈ r
    · simpa [hpr] using h
    · by_cases hpk : probe k p = true
      · simp only [hpr, if_false, hpk, if_true]
        rw [List.nodup_append]
        exact ⟨h, List.nodup_singleton p, by simpa [List.disjoint_singleton] using hpr⟩
      · simpa [hpr, hpk] using h

/-- A duplicate-free list contained in `l` and at least as long as `l`
contains every element of `l`. -/
theorem all_mem_of_nodup_subset_length {α : Type} [DecidableEq α]
    {l r : List α} (hnd : r.Nodup) (hsub : ∀ x ∈ r, x ∈ l)
    (hlen : l.length ≤ r.length) : ∀ p ∈ l, p ∈ r := by
  intro p hp
  by_contra hnp
  have hsub2 : r ⊆ l.erase p := by
    intro x hx
    have hne : x ≠ p := fun he => hnp (he ▸ hx)
    exact (List.mem_erase_of_ne hne).mpr (hsub x hx)
  have hsp := List.subperm_of_subset hnd hsub2
  have h1 := hsp.length_le
  have h2 := List.length_erase_add_one hp
  omega

/-- Main gate invariant: if `gateAux` terminates from a state whose `running`
set is duplicate-free, contained in `proxies`, and justified by earlier
successful probes, then on return every proxy has answered a successful
probe during one of the executed passes, and one fixed-length sleep was
performed per pass. -/
theorem gateAux_spec (probe : ℕ → String → Bool) (proxies : List String) :
    ∀ (fuel k : ℕ) (running : List String) (sleeps : List ℕ) (r : GateResult),
      running.Nodup →
      (∀ p ∈ running, p ∈ proxies) →
      (∀ p ∈ running, ∃ j, j < k ∧ probe j p = true) →
      sleeps = List.replicate k PING_INTERVAL_MS →
      gateAux probe proxies fuel k running sleeps = some r →
      (∀ p ∈ proxies, ∃ j, j < r.passes ∧ probe j p = true) ∧
        r.sleeps = List.replicate r.passes PING_INTERVAL_MS ∧
        (∀ p ∈ proxies, p ∈ r.running) := by
  intro fuel
  induction fuel with
  | zero =>
    intro k running sleeps r _ _ _ _ h
    simp [gateAux] at h
  | succ fuel ih =>
    intro k running sleeps r hnd hsub hjust hsl h
    rw [gateAux] at h
    by_cases hlt : running.length < proxies.length
    · rw [if_pos hlt] at h
      apply ih (k + 1) (passStep probe proxies k running)
        (sleeps ++ [PING_INTERVAL_MS]) r
      · exact passStep_nodup probe k proxies running hnd
      · intro p hp
        rcases (passStep_mem probe k proxies running p).mp hp with hx | hx
        · exact hsub p hx
        · exact hx.1
      · intro p hp
        rcases (passStep_mem probe k proxies running p).mp hp with hx | hx
        · rcases hjust p hx with ⟨j, hj1, hj2⟩
          exact ⟨j, by omega, hj2⟩
        · exact ⟨k, by omega, hx.2⟩
      · rw [hsl, List.replicate_succ']
      · exact h
    · rw [if_neg hlt] at h
      have hr : r = ⟨running, k, sleeps⟩ := by
        cases h; rfl
      subst hr
      push_neg at hlt
      have hall := all_mem_of_nodup_subset_length hnd hsub hlt
      exact ⟨fun p hp => hjust p (hall p hp), hsl, hall⟩

/-! ## The wave barrier (`src` lines 208–253)

The `for (const chunk of chunks) { await Promise.all(...) }` loop is embedded
as a small-step scheduler: a wave's tasks all start when the loop reaches its
chunk, and the loop can only advance past `await Promise.all` once no task of
the wave is still pending.  Within a wave, settle order is arbitrary. -/

/-- An observable scheduling event: a task starting or settling. -/
inductive Ev (T : Type) where
  | start (t : T)
  | settle (t : T)
deriving DecidableEq, Repr

/-- Scheduler state: waves not yet begun, unsettled tasks of the current
wave, and the event trace so far. -/
structure SchedState (T : Type) where
  remaining : List (List T)
  pending : List T
  trace : List (Ev T)
deriving DecidableEq, Repr

/-- One cooperative step of the dispatch loop: `beginWave` — the loop body
enters the next chunk (possible only with no pending task, because the body
awaits `Promise.all`) and launches all its tasks; `finishTask` — some
pending task settles. -/
inductive SchedStep {T : Type} [DecidableEq T] : SchedState T → SchedState T → Prop where
  | beginWave (tr : List (Ev T)) (w : List T) (ws : List (List T)) :
      SchedStep ⟨w :: ws, [], tr⟩ ⟨ws, w, tr ++ w.map Ev.start⟩
  | finishTask (ws : List (List T)) (p : List T) (tr : List (Ev T)) (a : T) (h : a ∈ p) :
      SchedStep ⟨ws, p, tr⟩ ⟨ws, p.erase a, tr ++ [Ev.settle a]⟩

/-- States reachable by the dispatch loop started on `waves`. -/
inductive SchedReach {T : Type} [DecidableEq T] (waves : List (List T)) :
    SchedState T → Prop where
  | init : SchedReach waves ⟨waves, [], []⟩
  | step {s s' : SchedState T} :
      SchedReach waves s → SchedStep s s' → SchedReach waves s'

/-- Wherever a task of a later wave starts in the trace, every task of every
earlier wave has already settled. -/
def BarrierProp {T : Type} (waves : List (List T)) (tr : List (Ev T)) : Prop :=
  ∀ (i j : ℕ) (hi : i < waves.length) (hj : j < waves.length), i < j →
    ∀ ti ∈ waves.get ⟨i, hi⟩, ∀ tj ∈ waves.get ⟨j, hj⟩,
      ∀ pre suf, tr = pre ++ Ev.start tj :: suf → Ev.settle ti ∈ pre

/-- Structural invariant of reachable scheduler states: `n` waves have
begun, the pending tasks are unsettled tasks of begun waves, and the trace
contains exactly the starts of begun waves and the settles of their
no-longer-pending tasks. -/
def SchedInv {T : Type} (waves : List (List T)) (s : SchedState T) : Prop :=
  ∃ n, n ≤ waves.length ∧
    s.remaining = waves.drop n ∧
    s.pending.Nodup ∧
    (∀ t ∈ s.pending, t ∈ (waves.take n).flatten) ∧
    (∀ t, Ev.start t ∈ s.trace ↔ t ∈ (waves.take n).flatten) ∧
    (∀ t, Ev.settle t ∈ s.trace ↔ (t ∈ (waves.take n).flatten ∧ t ∉ s.pending))

theorem mem_take_flatten {T : Type} (waves : List (List T)) {i n : ℕ}
    (hin : i < n) (hn : n ≤ waves.length) (t : T)
    (ht : t ∈ waves.get ⟨i, Nat.lt_of_lt_of_le hin hn⟩) :
    t ∈ (waves.take n).flatten := by
  apply List.mem_flatten.mpr
  refine ⟨waves.get ⟨i, Nat.lt_of_lt_of_le hin hn⟩, ?_, ht⟩
  have hlt : i < (waves.take n).length := by
    rw [List.length_take]; omega
  have heq : (waves.take n).get ⟨i, hlt⟩ = waves.get ⟨i, Nat.lt_of_lt_of_le hin hn⟩ := by
    simp [List.get_eq_getElem, List.getElem_take]
  rw [← heq]
  exact List.get_mem _ _ _

theorem wave_index_unique {T : Type} (waves : List (List T))
    (hnd : waves.flatten.Nodup) {i j : ℕ} (hi : i < waves.length)
    (hj : j < waves.length) (t : T) (hti : t ∈ waves.get ⟨i, hi⟩)
    (htj : t ∈ waves.get ⟨j, hj⟩) : i = j := by
  by_contra hne
  have hdisj := (List.nodup_flatten.mp hnd).2
  rcases Nat.lt_or_ge i j with h | h
  · exact (List.pairwise_iff_get.mp hdisj ⟨i, hi⟩ ⟨j, hj⟩ h) hti htj
  · have hji : j < i := by omega
    exact (List.pairwise_iff_get.mp hdisj ⟨j, hj⟩ ⟨i, hi⟩ hji) htj hti

theorem sched_reach_inv {T : Type} [DecidableEq T] (waves : List (List T))
    (hnd : waves.flatten.Nodup) :
    ∀ s, SchedReach waves s → SchedInv waves s ∧ BarrierProp waves s.trace := by
  intro s h
  induction h with
  | init =>
    constructor
    · refine ⟨0, Nat.zero_le _, by simp, List.nodup_nil, by simp, by simp, by simp⟩
    · intro i j hi hj hij ti hti tj htj pre suf heq
      exact absurd heq (by simp)
  | step hr hst ih =>
    cases hst with
    | beginWave tr w ws =>
      obtain ⟨⟨n, hn, hrem, hpnd, hpsub, hstart, hsettle⟩, hbar⟩ := ih
      simp only at hrem hpnd hpsub hstart hsettle hbar
      have hlen : n < waves.length := by
        have hc := congrArg List.length hrem
        simp only [List.length_drop, List.length_cons] at hc
        omega
      have hwn : waves[n]? = some w := by
        have h0 : (waves.drop n)[0]? = some w := by rw [← hrem]; simp
        rw [List.getElem?_drop] at h0
        simpa using h0
      have hwget : waves.get ⟨n, hlen⟩ = w := by
        have := List.getElem?_eq_getElem hlen
        rw [hwn] at this
        simpa [List.get_eq_getElem] using this.symm
      have hdrop1 : waves.drop (n + 1) = ws := by
        have hdd : (waves.drop n).drop 1 = waves.drop (n + 1) := by
          rw [List.drop_drop]
        rw [← hrem] at hdd
        simpa using hdd.symm
      have htake1 : (waves.take (n + 1)).flatten = (waves.take n).flatten ++ w := by
        rw [List.take_succ, hwn]
        simp
      have hnodup1 : ((waves.take (n + 1)).flatten).Nodup := by
        have hsplit : (waves.take (n + 1)).flatten ++ (waves.drop (n + 1)).flatten
            = waves.flatten := by
          rw [← List.flatten_append, List.take_append_drop]
        rw [← hsplit] at hnd
        exact hnd.of_append_left
      have hwtake := htake1 ▸ hnodup1
      rw [List.nodup_append] at hwtake
      have hw_nodup : w.Nodup := hwtake.2.1
      have hdisj : ∀ t ∈ (waves.take n).flatten, t ∉ w := fun t ht => hwtake.2.2 ht
      constructor
      · refine ⟨n + 1, by omega, by simpa using hdrop1.symm, hw_nodup, ?_, ?_, ?_⟩
        · intro t ht
          rw [htake1]
          exact List.mem_append_right _ ht
        · intro t
          simp only [List.mem_append]
          rw [htake1]
          constructor
          · rintro (h | h)
            · exact List.mem_append.mpr (Or.inl ((hstart t).mp h))
            · rcases List.mem_map.mp h with ⟨x, hx, he⟩
              cases he
              exact List.mem_append.mpr (Or.inr hx)
          · intro h
            rcases List.mem_append.mp h with h | h
            · exact Or.inl ((hstart t).mpr h)
            · exact Or.inr (List.mem_map.mpr ⟨t, h, rfl⟩)
        · intro t
          simp only [List.mem_append]
          constructor
          · rintro (h | h)
            · have h2 := (hsettle t).mp h
              rw [htake1]
              exact ⟨List.mem_append.mpr (Or.inl h2.1), hdisj t h2.1⟩
            · rcases List.mem_map.mp h with ⟨x, hx, he⟩
              cases he
          · rintro ⟨h1, h2⟩
            rw [htake1] at h1
            rcases List.mem_append.mp h1 with h1 | h1
            · exact Or.inl ((hsettle t).mpr ⟨h1, by simp⟩)
            · exact absurd h1 h2
      · intro i j hi hj hij ti hti tj htj pre suf heq
        have hstartw : ∀ (hin : Ev.start tj ∈ w.map Ev.start) (hpre : tr.Sublist pre ∨ tr = pre),
            Ev.settle ti ∈ pre := by
          intro hin hpre
          rcases List.mem_map.mp hin with ⟨x, hx, he⟩
          cases he
          have hjn : j = n := wave_index_unique waves hnd hj hlen tj htj (hwget ▸ hx)
          have hin2 : i < n := by omega
          have hmem : ti ∈ (waves.take n).flatten :=
            mem_take_flatten waves hin2 (le_of_lt hlen) ti hti
          have hsm : Ev.settle ti ∈ tr := (hsettle ti).mpr ⟨hmem, by simp⟩
          rcases hpre with hs | hs
          · exact hs.mem hsm
          · exact hs ▸ hsm
        rcases List.append_eq_append_iff.mp heq with ⟨a2, h1, h2⟩ | ⟨c2, h1, h2⟩
        · -- pre = tr ++ a2, start tj :: suf inside the started block
          subst h1
          have hin : Ev.start tj ∈ w.map Ev.start := by
            have : Ev.start tj ∈ a2 ++ Ev.start tj :: suf := by simp
            rw [← h2] at this
            exact this
          apply hstartw hin
          left
          exact (List.sublist_append_left tr a2)
        · -- tr = pre ++ c2
          cases c2 with
          | nil =>
            simp only [List.nil_append] at h2
            have hin : Ev.start tj ∈ w.map Ev.start := by
              rw [← h2]; simp
            apply hstartw hin
            right
            simpa using h1
          | cons x rest =>
            have hx : x = Ev.start tj := by
              have := congrArg (fun l => l.head?) h2
              simpa using this.symm
            subst hx
            exact hbar i j hi hj hij ti hti tj htj pre rest (by simpa using h1)
    | finishTask ws p tr a ha =>
      obtain ⟨⟨n, hn, hrem, hpnd, hpsub, hstart, hsettle⟩, hbar⟩ := ih
      simp only at hrem hpnd hpsub hstart hsettle hbar ha
      constructor
      · refine ⟨n, hn, by simpa using hrem, hpnd.erase a, ?_, ?_, ?_⟩
        · intro t ht
          exact hpsub t (List.erase_subset _ _ ht)
        · intro t
          simp only [List.mem_append, List.mem_singleton]
          constructor
          · rintro (h | h)
            · exact (hstart t).mp h
            · cases h
          · intro h
            exact Or.inl ((hstart t).mpr h)
        · intro t
          simp only [List.mem_append, List.mem_singleton]
          by_cases hta : t = a
          · subst hta
            constructor
            · intro _
              exact ⟨hpsub t ha, hpnd.not_mem_erase⟩
            · intro _
              exact Or.inr rfl
          · constructor
            · rintro (h | h)
              · have h2 := (hsettle t).mp h
                refine ⟨h2.1, ?_⟩
                intro hmem
                exact h2.2 (List.erase_subset _ _ hmem)
              · cases h
                exact absurd rfl hta
            · rintro ⟨h1, h2⟩
              refine Or.inl ((hsettle t).mpr ⟨h1, ?_⟩)
              intro hmem
              exact h2 ((List.mem_erase_of_ne hta).mpr hmem)
      · intro i j hi hj hij ti hti tj htj pre suf heq
        rcases List.append_eq_append_iff.mp heq with ⟨a2, h1, h2⟩ | ⟨c2, h1, h2⟩
        · -- a lone settle event contains no start
          cases a2 with
          | nil =>
            simp only [List.nil_append] at h2
            simp at h2
          | cons y rest =>
            have hlen2 := congrArg List.length h2
            simp at hlen2
        · cases c2 with
          | nil =>
            simp only [List.nil_append] at h2
            simp at h2
          | cons x rest =>
            have hx : x = Ev.start tj := by
              have := congrArg (fun l => l.head?) h2
              simpa using this.symm
            subst hx
            exact hbar i j hi hj hij ti hti tj htj pre rest (by simpa using h1)

theorem enum_nodup {α : Type} (l : List α) : (l.enum).Nodup := by
  have h1 : (l.enum.map Prod.fst) = List.range l.length := List.enum_map_fst l
  have h2 : (l.enum.map Prod.fst).Nodup := by
    rw [h1]; exact List.nodup_range l.length
  exact h2.of_map Prod.fst

/-- Once `ema` is strictly positive, `tick` always takes the smoothing
branch, the folded recurrence describes `ema`, positivity is preserved, and
`itemsProcessed` advances by one per tick. -/
theorem ticks_pos_aux (ds : List ℚ) :
    ∀ (c : EMAConfig), 0 < c.alpha → c.alpha ≤ 1 → 0 < c.ema → (∀ d ∈ ds, 0 < d) →
      (Timer.ticks c ds).ema
          = ds.foldl (fun e d => c.alpha * d + (1 - c.alpha) * e) c.ema ∧
        0 < (Timer.ticks c ds).ema ∧
        (Timer.ticks c ds).itemsProcessed = c.itemsProcessed + ds.length := by
  induction ds with
  | nil =>
    intro c h1 h2 h3 h4
    exact ⟨rfl, h3, by simp [Timer.ticks]⟩
  | cons d rest ih =>
    intro c h1 h2 h3 h4
    have hd : 0 < d := h4 d (List.mem_cons_self d rest)
    have hne : c.ema ≠ 0 := ne_of_gt h3
    have htick : (Timer.tick c d 0 1).config
        = { c with ema := c.alpha * d + (1 - c.alpha) * c.ema,
                   itemsProcessed := c.itemsProcessed + 1 } := by
      simp [Timer.tick, hne]
    have hstep : Timer.ticks c (d :: rest) = Timer.ticks ((Timer.tick c d 0 1).config) rest := rfl
    have hpos : 0 < c.alpha * d + (1 - c.alpha) * c.ema := by
      have hp1 := mul_pos h1 hd
      have hp2 := mul_nonneg (sub_nonneg.mpr h2) h3.le
      linarith
    have hrec := ih { c with ema := c.alpha * d + (1 - c.alpha) * c.ema,
                             itemsProcessed := c.itemsProcessed + 1 }
      h1 h2 hpos (fun x hx => h4 x (List.mem_cons_of_mem d hx))
    rw [hstep, htick]
    refine ⟨?_, hrec.2.1, ?_⟩
    · rw [hrec.1]
      rfl
    · rw [hrec.2.2]
      simp [List.length_cons]
      omega

/-- C2 counterexample: starting a run's estimator (`alpha = 0.18`, `ema = 0`)
and ticking with durations `0` then `1`, the code's `ema` is `1` — the
zero-valued first sample leaves `ema = 0`, so the second tick again takes
the first-sample branch — while the claimed recurrence yields `0.18`. -/
theorem c2_counterexample :
    (Timer.ticks ⟨18/100, 0, 0, 2, 0⟩ [0, 1]).ema ≠ specEMA (18/100) [0, 1] := by
  norm_num [Timer.ticks, Timer.tick, specEMA]

/-- C2 amended: for `0 < alpha ≤ 1` and strictly positive durations
`d1..dk` (`k ≥ 1`), after `k` ticks from a fresh estimator `ema` equals the
recurrence `ema_1 = d1`, `ema_i = alpha * d_i + (1 - alpha) * ema_{i-1}`,
and `itemsProcessed = k`. -/
theorem c2_ema_recurrence (alpha startT : ℚ) (tot : ℕ) (ds : List ℚ)
    (h1 : 0 < alpha) (h2 : alpha ≤ 1) (hds : ∀ d ∈ ds, 0 < d) (hne : ds ≠ []) :
    (Timer.ticks ⟨alpha, 0, startT, tot, 0⟩ ds).ema = specEMA alpha ds ∧
    (Timer.ticks ⟨alpha, 0, startT, tot, 0⟩ ds).itemsProcessed = ds.length := by
  cases ds with
  | nil => exact absurd rfl hne
  | cons d rest =>
    have hd : 0 < d := hds d (List.mem_cons_self d rest)
    have htick : (Timer.tick ⟨alpha, 0, startT, tot, 0⟩ d 0 1).config
        = ⟨alpha, d, startT, tot, 1⟩ := by
      simp [Timer.tick]
    have hstep : Timer.ticks ⟨alpha, 0, startT, tot, 0⟩ (d :: rest)
        = Timer.ticks ((Timer.tick ⟨alpha, 0, startT, tot, 0⟩ d 0 1).config) rest := rfl
    have hrec := ticks_pos_aux rest ⟨alpha, d, startT, tot, 1⟩ h1 h2 hd
      (fun x hx => hds x (List.mem_cons_of_mem d hx))
    rw [hstep, htick]
    refine ⟨?_, ?_⟩
    · rw [hrec.1]
      rfl
    · rw [hrec.2.2]
      simp [List.length_cons]
      omega

/-- C2 amended claim holds at a concrete instance. -/
theorem c2_witness :
    (Timer.ticks ⟨18/100, 0, 0, 2, 0⟩ [2000, 1000]).ema = specEMA (18/100) [2000, 1000] ∧
    (Timer.ticks ⟨18/100, 0, 0, 2, 0⟩ [2000, 1000]).itemsProcessed = 2 :=
  c2_ema_recurrence (18/100) 0 2 [2000, 1000] (by norm_num) (by norm_num)
    (by intro d hd; fin_cases hd <;> norm_num) (by simp)

/-- C8 counterexample: a single tick with duration `0` is a sample, yet the
code leaves `ema = 0`, not strictly positive. -/
theorem c8_counterexample :
    (Timer.ticks ⟨18/100, 0, 0, 1, 0⟩ [0]).itemsProcessed = 1 ∧
    ¬ (0 < (Timer.ticks ⟨18/100, 0, 0, 1, 0⟩ [0]).ema) := by
  refine ⟨by norm_num [Timer.ticks, Timer.tick], ?_⟩
  have h : (Timer.ticks ⟨18/100, 0, 0, 1, 0⟩ [0]).ema = 0 := by
    norm_num [Timer.ticks, Timer.tick]
  rw [h]
  norm_num

/-- C8 amended: for `0 < alpha ≤ 1` and at most `totalItems` ticks of
strictly positive duration, `itemsProcessed` never exceeds `totalItems`,
and `ema` is `0` with no samples and strictly positive after at least one
sample. -/
theorem c8_estimator_invariant (alpha startT : ℚ) (tot : ℕ) (ds : List ℚ)
    (h1 : 0 < alpha) (h2 : alpha ≤ 1) (hds : ∀ d ∈ ds, 0 < d)
    (hlen : ds.length ≤ tot) :
    (Timer.ticks ⟨alpha, 0, startT, tot, 0⟩ ds).itemsProcessed ≤ tot ∧
    (ds = [] → (Timer.ticks ⟨alpha, 0, startT, tot, 0⟩ ds).ema = 0) ∧
    (ds ≠ [] → 0 < (Timer.ticks ⟨alpha, 0, startT, tot, 0⟩ ds).ema) := by
  cases ds with
  | nil => exact ⟨by simp [Timer.ticks], fun _ => rfl, fun h => absurd rfl h⟩
  | cons d rest =>
    have hd : 0 < d := hds d (List.mem_cons_self d rest)
    have htick : (Timer.tick ⟨alpha, 0, startT, tot, 0⟩ d 0 1).config
        = ⟨alpha, d, startT, tot, 1⟩ := by
      simp [Timer.tick]
    have hstep : Timer.ticks ⟨alpha, 0, startT, tot, 0⟩ (d :: rest)
        = Timer.ticks ((Timer.tick ⟨alpha, 0, startT, tot, 0⟩ d 0 1).config) rest := rfl
    have hrec := ticks_pos_aux rest ⟨alpha, d, startT, tot, 1⟩ h1 h2 hd
      (fun x hx => hds x (List.mem_cons_of_mem d hx))
    rw [hstep, htick]
    refine ⟨?_, ?_, fun _ => hrec.2.1⟩
    · rw [hrec.2.2]
      simp only [List.length_cons] at hlen
      simp
      omega
    · intro h
      exact absurd h (List.cons_ne_nil d rest)

/-- C8 amended claim holds at a concrete instance. -/
theorem c8_witness :
    (Timer.ticks ⟨18/100, 0, 0, 3, 0⟩ [5, 7]).itemsProcessed ≤ 3 ∧
    ([(5 : ℚ), 7] ≠ [] → 0 < (Timer.ticks ⟨18/100, 0, 0, 3, 0⟩ [5, 7]).ema) :=
  have h := c8_estimator_invariant (18/100) 0 3 [5, 7] (by norm_num) (by norm_num)
    (by intro d hd; fin_cases hd <;> norm_num) (by norm_num)
  ⟨h.1, h.2.2⟩

/-- C9: `tick`'s projected eta is the updated `ema` times the remaining item
count divided by the scale factor, and is displayed through `formatETA`;
at the spec's instance (first sample of 2000 ms, 10 items remaining, scale
factor 5) the projected eta is 4000 ms, displayed `"000:00:00:04"`. -/
theorem c9_eta_formula_and_format :
    (∀ (c : EMAConfig) (now startT scale : ℚ),
        (Timer.tick c now startT scale).eta
          = (Timer.tick c now startT scale).config.ema
              * ((c.totalItems : ℚ) - ((c.itemsProcessed : ℚ) + 1)) / scale ∧
        (Timer.tick c now startT scale).etaDisplay
          = Timer.formatETA ((Timer.tick c now startT scale).eta)) ∧
    (Timer.tick ⟨18/100, 0, 0, 11, 0⟩ 2000 0 5).config.ema = 2000 ∧
    (Timer.tick ⟨18/100, 0, 0, 11, 0⟩ 2000 0 5).eta = 4000 ∧
    (Timer.tick ⟨18/100, 0, 0, 11, 0⟩ 2000 0 5).etaDisplay = "000:00:00:04" := by
  have hf : Timer.etaFields 4000 = (0, 0, 0, 4) := by
    norm_num [Timer.etaFields, jsRound, jsFmod, abs_of_nonneg]
  have hfmt : Timer.formatETA 4000 = "000:00:00:04" := by
    simp only [Timer.formatETA, hf]
    decide
  have heta : (Timer.tick ⟨18/100, 0, 0, 11, 0⟩ 2000 0 5).eta = 4000 := by
    norm_num [Timer.tick]
  refine ⟨fun c now startT scale => ⟨?_, rfl⟩, by norm_num [Timer.tick], heta, ?_⟩
  · simp only [Timer.tick]
    push_cast
    ring
  · have hdisp : (Timer.tick ⟨18/100, 0, 0, 11, 0⟩ 2000 0 5).etaDisplay
        = Timer.formatETA ((Timer.tick ⟨18/100, 0, 0, 11, 0⟩ 2000 0 5).eta) := rfl
    rw [hdisp, heta, hfmt]

/-- C10: `formatETA` rounds the residual seconds, so any time whose residual
seconds lie in `[59.5, 60)` — `t` in `[59500, 60000)` ms — is rendered with
seconds field `"60"` as `"000:00:00:60"` instead of carrying into minutes. -/
theorem c10_formatETA_sixty (t : ℚ) (h1 : 59500 ≤ t) (h2 : t < 60000) :
    Timer.formatETA t = "000:00:00:60" := by
  have habs : |t| = t := abs_of_nonneg (by linarith)
  have hdays : (⌊t / 1000 / 86400⌋ : ℤ) = 0 := by
    rw [Int.floor_eq_zero_iff, Set.mem_Ico]
    constructor
    · positivity
    · rw [div_lt_one (by norm_num)]
      linarith
  have hhours : (⌊t / 1000 / 3600⌋ : ℤ) = 0 := by
    rw [Int.floor_eq_zero_iff, Set.mem_Ico]
    constructor
    · positivity
    · rw [div_lt_one (by norm_num)]
      linarith
  have hmins : (⌊t / 1000 / 60⌋ : ℤ) = 0 := by
    rw [Int.floor_eq_zero_iff, Set.mem_Ico]
    constructor
    · positivity
    · rw [div_lt_one (by norm_num)]
      linarith
  have hsecs : jsRound (jsFmod (t / 1000) 60) = 60 := by
    rw [jsFmod, hmins]
    rw [jsRound, Int.floor_eq_iff]
    constructor
    · push_cast
      linarith
    · push_cast
      linarith
  have hfields : Timer.etaFields t = (0, 0, 0, 60) := by
    simp only [Timer.etaFields, habs, hdays, Int.cast_zero, zero_mul, sub_zero, hhours,
      EuclideanDomain.zero_mod, hmins, hsecs]
  simp only [Timer.formatETA, hfields]
  decide

/-- C10 holds at the concrete input 59600 ms. -/
theorem c10_witness : Timer.formatETA 59600 = "000:00:00:60" :=
  c10_formatETA_sixty 59600 (by norm_num) (by norm_num)

/-- C1 counterexample: one item whose fetch resolves but whose success
handler throws.  The handler is invoked (and throws), and the `catch` then
invokes the error handler as well, so the run makes 2 handler-or-error
invocations for a 1-item list. -/
theorem c1_counterexample :
    (runCalls ["p1"] ["u1"] ⟨fun _ => true, fun _ => false⟩ true).length
      ≠ (["u1"] : List String).length := by
  simp [runCalls, lodashChunk, chunkPos_cons, chunkPos_nil, taskCalls]

/-- C1 amended: for non-empty items and proxies, `run` runs exactly one task
per item — the task records, read wave by wave and slot by slot, list the
input items exactly once each (the wave layout, not a completion order);
with an error handler supplied, for each item at least one of the success
handler and the error handler is invoked, and the total number of
handler-or-errorHandler invocations is the item count plus the number of
items whose success handler throws (those get both a handler and an
error-handler invocation). -/
theorem c1_settlements_and_calls (proxies items : List String) (beh : Behavior)
    (hp : proxies ≠ []) (hi : items ≠ []) :
    ((runWaves proxies items beh).flatten).map Record.url = items ∧
    (∀ u ∈ items, Call.handler u ∈ runCalls proxies items beh true ∨
      Call.errorh u ∈ runCalls proxies items beh true) ∧
    (runCalls proxies items beh true).length
      = items.length + items.countP (fun u => beh.fetchOk u && !beh.handlerOk u) := by
  refine ⟨runWaves_flatten_map_url proxies items beh hp, ?_, ?_⟩
  · intro u hu
    rw [runCalls_eq proxies items beh true hp]
    by_cases hf : beh.fetchOk u = true
    · left
      apply List.mem_flatten.mpr
      refine ⟨taskCalls beh true u, List.mem_map.mpr ⟨u, hu, rfl⟩, ?_⟩
      cases hh : beh.handlerOk u <;> simp [taskCalls, hf, hh]
    · right
      apply List.mem_flatten.mpr
      refine ⟨taskCalls beh true u, List.mem_map.mpr ⟨u, hu, rfl⟩, ?_⟩
      simp [taskCalls, hf]
  · rw [runCalls_eq proxies items beh true hp, callsFlat_length]

/-- C1 amended claim holds at a concrete instance. -/
theorem c1_witness :
    ((runWaves ["p1"] ["u1", "u2"] ⟨fun _ => true, fun _ => true⟩).flatten).map Record.url
        = ["u1", "u2"] ∧
    (Call.handler "u1" ∈ runCalls ["p1"] ["u1", "u2"] ⟨fun _ => true, fun _ => true⟩ true ∨
      Call.errorh "u1" ∈ runCalls ["p1"] ["u1", "u2"] ⟨fun _ => true, fun _ => true⟩ true) ∧
    (runCalls ["p1"] ["u1", "u2"] ⟨fun _ => true, fun _ => true⟩ true).length
      = (["u1", "u2"] : List String).length
        + (["u1", "u2"] : List String).countP
            (fun u => Behavior.fetchOk ⟨fun _ => true, fun _ => true⟩ u
              && !Behavior.handlerOk ⟨fun _ => true, fun _ => true⟩ u) :=
  have h := c1_settlements_and_calls ["p1"] ["u1", "u2"] ⟨fun _ => true, fun _ => true⟩
    (by simp) (by simp)
  ⟨h.1, h.2.1 "u1" (by simp), h.2.2⟩

/-- C3: `run` partitions the items in input order into waves of size equal
to the proxy count (every wave before the last is full, the last is
non-empty and no larger), slot `j` of every wave runs on proxy `j`; and the
spec's scenario (`["u1","u2","u3"]` over `[p1,p2]`) yields exactly waves
`[u1@p1, u2@p2]` and `[u3@p1]`. -/
theorem c3_wave_assignment (proxies items : List String) (beh : Behavior)
    (hp : proxies ≠ []) :
    (((runWaves proxies items beh).flatten).map Record.url = items ∧
      (∀ w ∈ runWaves proxies items beh, w.length ≤ proxies.length ∧ w ≠ []) ∧
      (∀ w ∈ (runWaves proxies items beh).dropLast, w.length = proxies.length) ∧
      (∀ w ∈ runWaves proxies items beh, ∀ (j : ℕ) (rec : Record),
        w.get? j = some rec → rec.proxyIdx = j ∧ rec.proxy = proxies.getD j "")) ∧
    runWaves ["p1", "p2"] ["u1", "u2", "u3"] ⟨fun _ => true, fun _ => true⟩
      = [[⟨"u1", 0, "p1", true⟩, ⟨"u2", 1, "p2", true⟩], [⟨"u3", 0, "p1", true⟩]] := by
  obtain ⟨p, ps, rfl⟩ := List.exists_cons_of_ne_nil hp
  refine ⟨⟨runWaves_flatten_map_url _ items beh hp, ?_, ?_, ?_⟩, ?_⟩
  · intro w hw
    rcases List.mem_map.mp hw with ⟨c, hc, rfl⟩
    simp only [lodashChunk, List.length_cons] at hc
    constructor
    · rw [runWave_length]
      simpa using chunkPos_mem_length ps.length items c hc
    · have hne := chunkPos_ne_nil ps.length items c hc
      intro hcon
      have := congrArg List.length hcon
      rw [runWave_length] at this
      simp at this
      exact hne this
  · intro w hw
    rw [runWaves, ← List.map_dropLast] at hw
    rcases List.mem_map.mp hw with ⟨c, hc, rfl⟩
    simp only [lodashChunk, List.length_cons] at hc
    rw [runWave_length]
    simpa using chunkPos_dropLast_length ps.length items c hc
  · intro w hw j rec hj
    rcases List.mem_map.mp hw with ⟨c, hc, rfl⟩
    rw [runWave_get?] at hj
    rcases Option.map_eq_some'.mp hj with ⟨u, hu, rfl⟩
    simp [runTask]
  · simp [runWaves, lodashChunk, chunkPos_cons, chunkPos_nil, runWave, runTask]

/-- C3 holds at a concrete instance. -/
theorem c3_witness :
    ((runWaves ["q1"] ["v1"] ⟨fun _ => true, fun _ => true⟩).flatten).map Record.url = ["v1"] :=
  ((c3_wave_assignment ["q1"] ["v1"] ⟨fun _ => true, fun _ => true⟩ (by simp)).1).1

/-- C6: an item whose fetch resolves but whose success handler throws is
caught, forwarded to the supplied error handler, recorded as a failure
(`success` stays false), and the run still settles every item. -/
theorem c6_handler_exception (proxies items : List String) (beh : Behavior)
    (u : String) (hp : proxies ≠ []) (hu : u ∈ items)
    (hf : beh.fetchOk u = true) (hh : beh.handlerOk u = false) :
    (∀ w ∈ runWaves proxies items beh, ∀ rec ∈ w, rec.url = u → rec.outcome = false) ∧
    Call.errorh u ∈ runCalls proxies items beh true ∧
    ((runWaves proxies items beh).flatten).length = items.length := by
  refine ⟨?_, ?_, ?_⟩
  · intro w hw rec hrec hurl
    rcases List.mem_map.mp hw with ⟨c, hc, rfl⟩
    have h := (runWave_mem beh proxies c 0 rec hrec).2
    rw [hurl, hf, hh] at h
    simpa using h
  · rw [runCalls_eq proxies items beh true hp]
    apply List.mem_flatten.mpr
    refine ⟨taskCalls beh true u, List.mem_map.mpr ⟨u, hu, rfl⟩, ?_⟩
    simp [taskCalls, hf, hh]
  · have h := congrArg List.length (runWaves_flatten_map_url proxies items beh hp)
    rw [List.length_map] at h
    exact h

/-- C6 holds at a concrete instance. -/
theorem c6_witness :
    Call.errorh "a" ∈ runCalls ["p"] ["a", "b"] ⟨fun _ => true, fun u => u == "b"⟩ true ∧
    ((runWaves ["p"] ["a", "b"] ⟨fun _ => true, fun u => u == "b"⟩).flatten).length
      = (["a", "b"] : List String).length :=
  have h := c6_handler_exception ["p"] ["a", "b"] ⟨fun _ => true, fun u => u == "b"⟩ "a"
    (by simp) (by simp) rfl (by decide)
  ⟨h.2.1, h.2.2⟩

/-- C7: constructing a `ProxySwarm` with an empty proxy list reports a
visible error but still yields an instance, and `run` on that instance
produces no waves and makes no handler or error-handler invocation for any
item list (`_.chunk(urls, 0)` is `[]`). -/
theorem c7_empty_proxy_list :
    (mkProxySwarm []).errorReported = true ∧
    (∀ (items : List String) (beh : Behavior) (eh : Bool),
      runWaves (mkProxySwarm []).proxies items beh = [] ∧
      runCalls (mkProxySwarm []).proxies items beh eh = []) := by
  refine ⟨rfl, fun items beh eh => ⟨?_, ?_⟩⟩
  · simp [runWaves, mkProxySwarm, lodashChunk]
  · simp [runCalls, mkProxySwarm, lodashChunk]

/-- C4: in every run (waves being the chunk partition of the enumerated
item list) and every reachable scheduler state, no task of a later wave has
started before every task of every earlier wave settled. -/
theorem c4_wave_barrier (proxies items : List String) (s : SchedState (ℕ × String))
    (hp : proxies ≠ [])
    (hreach : SchedReach (lodashChunk items.enum proxies.length) s) :
    BarrierProp (lodashChunk items.enum proxies.length) s.trace := by
  have hnd : ((lodashChunk items.enum proxies.length).flatten).Nodup := by
    rw [lodashChunk_join _ _ (List.length_pos.mpr hp)]
    exact enum_nodup items
  exact (sched_reach_inv _ hnd s hreach).2

/-- C4 holds on a concrete schedule: items `u1, u2` over one proxy; wave 2's
start appears only after wave 1's settle. -/
theorem c4_witness :
    Ev.settle ((0 : ℕ), "u1") ∈ [Ev.start ((0 : ℕ), "u1"), Ev.settle ((0 : ℕ), "u1")] := by
  have hw : lodashChunk (["u1", "u2"].enum) (["p1"] : List String).length
      = [[((0 : ℕ), "u1")], [((1 : ℕ), "u2")]] := by
    simp [lodashChunk, chunkPos_cons, chunkPos_nil, List.enum, List.enumFrom]
  have s0 : SchedReach ([[((0 : ℕ), "u1")], [((1 : ℕ), "u2")]])
      ⟨[[((0 : ℕ), "u1")], [((1 : ℕ), "u2")]], [], []⟩ := SchedReach.init
  have s1 := SchedReach.step s0
    (SchedStep.beginWave (T := ℕ × String) [] [((0 : ℕ), "u1")] [[((1 : ℕ), "u2")]])
  have s2 := SchedReach.step s1
    (SchedStep.finishTask [[((1 : ℕ), "u2")]] [((0 : ℕ), "u1")]
      ([] ++ [((0 : ℕ), "u1")].map Ev.start) ((0 : ℕ), "u1") (by simp))
  have s2' : SchedReach ([[((0 : ℕ), "u1")], [((1 : ℕ), "u2")]])
      ⟨[[((1 : ℕ), "u2")]], [], [Ev.start ((0 : ℕ), "u1"), Ev.settle ((0 : ℕ), "u1")]⟩ := by
    simpa using s2
  have s3 := SchedReach.step s2'
    (SchedStep.beginWave (T := ℕ × String)
      [Ev.start ((0 : ℕ), "u1"), Ev.settle ((0 : ℕ), "u1")] [((1 : ℕ), "u2")] [])
  have s3' : SchedReach ([[((0 : ℕ), "u1")], [((1 : ℕ), "u2")]])
      ⟨[], [((1 : ℕ), "u2")],
        [Ev.start ((0 : ℕ), "u1"), Ev.settle ((0 : ℕ), "u1"), Ev.start ((1 : ℕ), "u2")]⟩ := by
    simpa using s3
  have hreach : SchedReach (lodashChunk (["u1", "u2"].enum) (["p1"] : List String).length)
      ⟨[], [((1 : ℕ), "u2")],
        [Ev.start ((0 : ℕ), "u1"), Ev.settle ((0 : ℕ), "u1"), Ev.start ((1 : ℕ), "u2")]⟩ := by
    rw [hw]
    exact s3'
  have hb := c4_wave_barrier ["p1"] ["u1", "u2"] _ (by simp) hreach
  rw [hw] at hb
  exact hb 0 1 (by norm_num) (by norm_num) (by norm_num)
    ((0 : ℕ), "u1") (by simp) ((1 : ℕ), "u2") (by simp)
    [Ev.start ((0 : ℕ), "u1"), Ev.settle ((0 : ℕ), "u1")] [] rfl

/-- C5: whenever the readiness gate returns, every endpoint answered at
least one successful probe during some executed pass; exactly one fixed
1000 ms sleep was performed per pass over the full set; and a failed probe
of a not-yet-ready endpoint adds nothing to the ready set (no error — it is
simply retried on the next pass). -/
theorem c5_readiness_gate (probe : ℕ → String → Bool) (proxies : List String)
    (fuel : ℕ) (r : GateResult)
    (h : waitForProxiesReady probe proxies fuel = some r) :
    (∀ p ∈ proxies, ∃ j, j < r.passes ∧ probe j p = true) ∧
    r.sleeps = List.replicate r.passes PING_INTERVAL_MS ∧
    (∀ (k : ℕ) (running : List String) (p : String), p ∉ running →
      probe k p = false → p ∉ passStep probe proxies k running) := by
  have hg := gateAux_spec probe proxies fuel 0 [] [] r List.nodup_nil
    (by simp) (by simp) (by simp) h
  refine ⟨hg.1, hg.2.1, ?_⟩
  intro k running p hnr hpf hmem
  rcases (passStep_mem probe k proxies running p).mp hmem with hx | hx
  · exact hnr hx
  · exact absurd hx.2 (by simp [hpf])

/-- Probe oracle for the C5 witness: endpoint `A` is ready from the first
pass, `B` only from pass 2. -/
def probeW : ℕ → String → Bool := fun k p => p == "A" || decide (2 ≤ k)

/-- C5 holds at the spec's two-endpoint scenario: the gate returns after
pass 2 succeeds for `B` (three passes, three sleeps). -/
theorem c5_witness :
    (∃ j, j < (⟨["A", "B"], 3, [1000, 1000, 1000]⟩ : GateResult).passes
        ∧ probeW j "B" = true) ∧
    (⟨["A", "B"], 3, [1000, 1000, 1000]⟩ : GateResult).sleeps
      = List.replicate (⟨["A", "B"], 3, [1000, 1000, 1000]⟩ : GateResult).passes
          PING_INTERVAL_MS := by
  have h := c5_readiness_gate probeW ["A", "B"] 10 ⟨["A", "B"], 3, [1000, 1000, 1000]⟩ rfl
  exact ⟨h.1 "B" (by simp), h.2.1⟩
